import Mathlib

/-!
Verification of the deco-sites/kv collaborative-whiteboard core.

Shallow embedding of the reconciliation engine in `src/collab.ts`
(class `ExcalidrawCollab`), the throttle / interleave helpers in
`src/util.ts`, and — for the parts whose implementation lives in
external dependencies (`fast-json-patch`, `WatchTarget` of
`@deco/actors/watch`) — models written from the specification's
contract, each marked `Modelled from the spec:` in its doc comment.

JS objects `Record<string, T>` are embedded as association lists
`List (String × T)` with JS-object update semantics (`setEl` replaces
in place preserving key order and appends when new, `eraseEl` removes
the key, `lookupEl` finds the first binding).  Timestamps (`updated`)
are JS numbers compared with `<` / `>`; they are embedded as `Int`.
-/

/-- `ExcalidrawElement` from src/collab.ts: `{ id: string; updated: number }`. -/
structure ExcalidrawElement where
  id : String
  updated : Int
deriving DecidableEq, Repr

/-- `ExcalidrawElementOrDeleted = ExcalidrawElement | { deleted: true }` from src/collab.ts. -/
inductive ElementOrDeleted where
  | elem (e : ExcalidrawElement)
  | deleted
deriving DecidableEq, Repr

/-- The `elements: Record<string, ExcalidrawElement>` map of the scene. -/
abbrev Elements := List (String × ExcalidrawElement)

/-- JS object read `els[k]`. -/
def lookupEl : Elements → String → Option ExcalidrawElement
  | [], _ => none
  | (k, e) :: rest, i => if k = i then some e else lookupEl rest i

/-- JS object write `els[k] = v`: replace in place, append when the key is new. -/
def setEl : Elements → String → ExcalidrawElement → Elements
  | [], i, v => [(i, v)]
  | (k, e) :: rest, i, v => if k = i then (i, v) :: rest else (k, e) :: setEl rest i v

/-- JS `delete els[k]`. -/
def eraseEl : Elements → String → Elements
  | [], _ => []
  | (k, e) :: rest, i => if k = i then eraseEl rest i else (k, e) :: eraseEl rest i

/-- One iteration of the `for (const [elementId, partialElement] of Object.entries(...))`
loop in `ExcalidrawCollab.patch` (src/collab.ts):
a tombstone deletes the stored element unconditionally; a replacement is stored
iff no element exists under that id or the replacement's `updated` is strictly
greater; otherwise the element is untouched.  The boolean records whether the
entry is kept in `patchOrPartials` (`true`) or removed from it by
`delete patchOrPartials[elementId]` (`false`, the stale case). -/
def applyEntry (els : Elements) (i : String) (v : ElementOrDeleted) :
    Elements × Bool :=
  match v with
  | .deleted => (eraseEl els i, true)
  | .elem p =>
    match lookupEl els i with
    | none => (setEl els i p, true)
    | some e => if e.updated < p.updated then (setEl els i p, true) else (els, false)

/-- The whole element loop of `ExcalidrawCollab.patch`: folds `applyEntry`
over the entries in object order and returns the final element map together
with what remains of `patchOrPartials` (the diff later broadcast). -/
def patchElementsGo : Elements → List (String × ElementOrDeleted) →
    Elements × List (String × ElementOrDeleted)
  | els, [] => (els, [])
  | els, (i, v) :: rest =>
    let step := applyEntry els i v
    let tail := patchElementsGo step.1 rest
    (tail.1, if step.2 then (i, v) :: tail.2 else tail.2)

/-- Scene state owned by `ExcalidrawCollab`: `sceneData.elements` plus `sceneVersion`. -/
structure SceneState where
  elements : Elements
  version : Nat
deriving DecidableEq, Repr

/-- `Collaborator` from src/collab.ts (fields irrelevant to the claims collapsed;
`id` is optional exactly as in the source). -/
structure Collaborator where
  id : Option String
  username : Option String := none
deriving DecidableEq, Repr

/-- `CollabEvent` from src/collab.ts. -/
inductive CollabEvent where
  | sceneSynced (elements : Elements) (collaborators : List (String × Collaborator))
      (version : Nat)
  | collaboratorUpdated (c : Collaborator)
  | collaboratorLeft (i : String)
  | sceneElementsSynced (elements : Elements) (version : Nat)
  | sceneElementsDiff (version : Nat) (diff : List (String × ElementOrDeleted))
deriving DecidableEq, Repr

/-- `PatchResponse = VersionedScene & { conflict?: true }` from src/collab.ts. -/
structure PatchResponse where
  elements : Elements
  version : Nat
  conflict : Bool
deriving DecidableEq, Repr

/-- Result of one mutating call: the new stored state, the returned value,
the events `collabEvents.notify` was called with, and whether
`throttledSaveState` was invoked. -/
structure PatchOutcome where
  state : SceneState
  response : PatchResponse
  events : List CollabEvent
  saveTriggered : Bool
deriving DecidableEq, Repr

/-- The record overload of `ExcalidrawCollab.patch` (field-level merge,
src/collab.ts): run the element loop, then `++this.sceneVersion`, trigger the
throttled save, and notify a single `scene-elements-diff` event whose payload
is what remains of `patchOrPartials`. -/
def patchFields (st : SceneState) (entries : List (String × ElementOrDeleted)) :
    PatchOutcome :=
  let r := patchElementsGo st.elements entries
  let v := st.version + 1
  { state := ⟨r.1, v⟩
    response := ⟨r.1, v, false⟩
    events := [.sceneElementsDiff v r.2]
    saveTriggered := true }

/-- Keys of an entry list. -/
def entryKeys (entries : List (String × ElementOrDeleted)) : List String :=
  entries.map Prod.fst

-- Basic association-list lemmas -------------------------------------------

theorem lookupEl_eraseEl_self (els : Elements) (i : String) :
    lookupEl (eraseEl els i) i = none := by
  induction els with
  | nil => rfl
  | cons kv rest ih =>
    obtain ⟨k, e⟩ := kv
    by_cases h : k = i
    · simpa [eraseEl, h] using ih
    · simpa [eraseEl, lookupEl, h] using ih

theorem lookupEl_setEl_self (els : Elements) (i : String) (v : ExcalidrawElement) :
    lookupEl (setEl els i v) i = some v := by
  induction els with
  | nil => simp [setEl, lookupEl]
  | cons kv rest ih =>
    obtain ⟨k, e⟩ := kv
    by_cases h : k = i
    · simp [setEl, h, lookupEl]
    · simpa [setEl, lookupEl, h] using ih

theorem lookupEl_eraseEl_ne (els : Elements) (i j : String) (h : i ≠ j) :
    lookupEl (eraseEl els i) j = lookupEl els j := by
  induction els with
  | nil => rfl
  | cons kv rest ih =>
    obtain ⟨k, e⟩ := kv
    by_cases hk : k = i
    · subst hk
      simp [eraseEl, lookupEl, ih, h]
    · by_cases hj : k = j
      · subst hj
        simp [eraseEl, lookupEl, hk]
      · simp [eraseEl, lookupEl, hk, hj, ih]

theorem lookupEl_setEl_ne (els : Elements) (i j : String) (v : ExcalidrawElement)
    (h : i ≠ j) : lookupEl (setEl els i v) j = lookupEl els j := by
  induction els with
  | nil => simp [setEl, lookupEl, h]
  | cons kv rest ih =>
    obtain ⟨k, e⟩ := kv
    by_cases hk : k = i
    · subst hk
      simp [setEl, lookupEl, h]
    · by_cases hj : k = j
      · subst hj
        simp [setEl, lookupEl, hk]
      · simp [setEl, lookupEl, hk, hj, ih]

theorem eraseEl_of_lookup_none (els : Elements) (i : String)
    (h : lookupEl els i = none) : eraseEl els i = els := by
  induction els with
  | nil => rfl
  | cons kv rest ih =>
    obtain ⟨k, e⟩ := kv
    by_cases hk : k = i
    · simp [lookupEl, hk] at h
    · simp only [lookupEl, if_neg hk] at h
      simp [eraseEl, hk, ih h]

/-- `applyEntry` leaves every other key alone. -/
theorem lookupEl_applyEntry_ne (els : Elements) (i j : String)
    (v : ElementOrDeleted) (h : i ≠ j) :
    lookupEl (applyEntry els i v).1 j = lookupEl els j := by
  cases v with
  | deleted => simpa [applyEntry] using lookupEl_eraseEl_ne els i j h
  | elem p =>
    cases he : lookupEl els i with
    | none => simpa [applyEntry, he] using lookupEl_setEl_ne els i j p h
    | some e =>
      by_cases hu : e.updated < p.updated
      · simpa [applyEntry, he, hu] using lookupEl_setEl_ne els i j p h
      · simp [applyEntry, he, hu]

/-- How `applyEntry` transforms the binding of its own key. -/
def applyEntryLookup (cur : Option ExcalidrawElement) (v : ElementOrDeleted) :
    Option ExcalidrawElement :=
  match v with
  | .deleted => none
  | .elem p =>
    match cur with
    | none => some p
    | some e => if e.updated < p.updated then some p else some e

theorem lookupEl_applyEntry_self (els : Elements) (i : String)
    (v : ElementOrDeleted) :
    lookupEl (applyEntry els i v).1 i = applyEntryLookup (lookupEl els i) v := by
  cases v with
  | deleted => simpa [applyEntry, applyEntryLookup] using lookupEl_eraseEl_self els i
  | elem p =>
    cases he : lookupEl els i with
    | none =>
      simpa [applyEntry, applyEntryLookup, he] using lookupEl_setEl_self els i p
    | some e =>
      by_cases hu : e.updated < p.updated
      · simpa [applyEntry, applyEntryLookup, he, hu] using lookupEl_setEl_self els i p
      · simp [applyEntry, applyEntryLookup, he, hu]

/-- Entries whose keys avoid `j` do not change the binding of `j`. -/
theorem lookupEl_patchElementsGo_not_mem (entries : List (String × ElementOrDeleted))
    (els : Elements) (j : String) (h : j ∉ entryKeys entries) :
    lookupEl (patchElementsGo els entries).1 j = lookupEl els j := by
  induction entries generalizing els with
  | nil => rfl
  | cons kv rest ih =>
    obtain ⟨k, v⟩ := kv
    have hk : k ≠ j := by
      intro hkj; exact h (by simp [entryKeys, hkj])
    have hrest : j ∉ entryKeys rest := by
      intro hj; exact h (by simp [entryKeys] at hj ⊢; exact Or.inr hj)
    calc lookupEl (patchElementsGo (applyEntry els k v).1 rest).1 j
        = lookupEl (applyEntry els k v).1 j := ih _ hrest
      _ = lookupEl els j := lookupEl_applyEntry_ne els k j v hk

/-- Whether a replacement with current stored binding `cur` is accepted
(the `!element || partialElement.updated > element.updated` test in the source). -/
def accepts (cur : Option ExcalidrawElement) (p : ExcalidrawElement) : Bool :=
  match cur with
  | none => true
  | some e => e.updated < p.updated

/-- With distinct keys (a JS record has them), the final binding of each key that
occurs in the call is exactly its own entry applied to its initial binding. -/
theorem lookupEl_patchElementsGo_mem (entries : List (String × ElementOrDeleted))
    (els : Elements) (i : String) (v : ElementOrDeleted)
    (hnd : (entryKeys entries).Nodup) (hmem : (i, v) ∈ entries) :
    lookupEl (patchElementsGo els entries).1 i
      = applyEntryLookup (lookupEl els i) v := by
  induction entries generalizing els with
  | nil => cases hmem
  | cons kv rest ih =>
    obtain ⟨k, w⟩ := kv
    have hnd2 : (k :: entryKeys rest).Nodup := by
      simpa [entryKeys] using hnd
    have hnd' : (entryKeys rest).Nodup := (List.nodup_cons.mp hnd2).2
    have hknot : k ∉ entryKeys rest := (List.nodup_cons.mp hnd2).1
    rcases List.mem_cons.mp hmem with hhead | htail
    · obtain ⟨hik, hvw⟩ := Prod.mk.injEq .. ▸ hhead
      subst hik; subst hvw
      have : lookupEl (patchElementsGo (applyEntry els i v).1 rest).1 i
          = lookupEl (applyEntry els i v).1 i := by
        refine lookupEl_patchElementsGo_not_mem rest _ i ?_
        intro hc
        exact hknot hc
      simpa [patchElementsGo, this] using lookupEl_applyEntry_self els i v
    · have hki : k ≠ i := by
        intro hk; subst hk
        exact hknot (by simpa [entryKeys] using List.mem_map_of_mem Prod.fst htail)
      have := ih (applyEntry els k w).1 hnd' htail
      simpa [patchElementsGo, this] using
        congrArg (fun c => applyEntryLookup c v)
          (lookupEl_applyEntry_ne els k i w hki)

/-- Everything kept in the broadcast diff is one of the call's own entries. -/
theorem diff_subset_entries (entries : List (String × ElementOrDeleted))
    (els : Elements) (x : String × ElementOrDeleted)
    (hx : x ∈ (patchElementsGo els entries).2) : x ∈ entries := by
  induction entries generalizing els with
  | nil => cases hx
  | cons kv rest ih =>
    obtain ⟨k, w⟩ := kv
    by_cases hkeep : (applyEntry els k w).2
    · simp only [patchElementsGo, hkeep, if_true] at hx
      rcases List.mem_cons.mp hx with h | h
      · exact h ▸ List.mem_cons_self _ _
      · exact List.mem_cons_of_mem _ (ih _ h)
    · simp only [patchElementsGo, Bool.not_eq_true] at hkeep
      simp only [patchElementsGo, hkeep, if_neg] at hx
      simp only [Bool.false_eq_true, if_false] at hx
      exact List.mem_cons_of_mem _ (ih _ hx)

/-- Tombstone entries are always kept in the diff. -/
theorem tombstone_mem_diff (entries : List (String × ElementOrDeleted))
    (els : Elements) (i : String) (hmem : (i, ElementOrDeleted.deleted) ∈ entries) :
    (i, ElementOrDeleted.deleted) ∈ (patchElementsGo els entries).2 := by
  induction entries generalizing els with
  | nil => cases hmem
  | cons kv rest ih =>
    obtain ⟨k, w⟩ := kv
    rcases List.mem_cons.mp hmem with hhead | htail
    · obtain ⟨hik, hvw⟩ := Prod.mk.injEq .. ▸ hhead
      subst hik; subst hvw
      simp [patchElementsGo, applyEntry]
    · by_cases hkeep : (applyEntry els k w).2
      · simp only [patchElementsGo, hkeep, if_true]
        exact List.mem_cons_of_mem _ (ih _ htail)
      · simp only [Bool.not_eq_true] at hkeep
        simp only [patchElementsGo, hkeep, Bool.false_eq_true, if_false]
        exact ih _ htail

/-- A replacement entry is in the diff iff it was accepted against the initial
binding of its key (distinct keys assumed, as for a JS record). -/
theorem diff_elem_iff (entries : List (String × ElementOrDeleted))
    (els : Elements) (i : String) (p : ExcalidrawElement)
    (hnd : (entryKeys entries).Nodup) :
    (i, ElementOrDeleted.elem p) ∈ (patchElementsGo els entries).2
      ↔ (i, ElementOrDeleted.elem p) ∈ entries ∧ accepts (lookupEl els i) p := by
  induction entries generalizing els with
  | nil => simp [patchElementsGo]
  | cons kv rest ih =>
    obtain ⟨k, w⟩ := kv
    have hnd2 : (k :: entryKeys rest).Nodup := by
      simpa [entryKeys] using hnd
    have hnd' : (entryKeys rest).Nodup := (List.nodup_cons.mp hnd2).2
    have hknot : k ∉ entryKeys rest := (List.nodup_cons.mp hnd2).1
    by_cases hhead : (k, w) = (i, ElementOrDeleted.elem p)
    · obtain ⟨hik, hvw⟩ := Prod.mk.injEq .. ▸ hhead
      subst hik; subst hvw
      have hnotrest : (k, ElementOrDeleted.elem p) ∉ rest := by
        intro hc
        exact hknot (by simpa [entryKeys] using List.mem_map_of_mem Prod.fst hc)
      constructor
      · intro hx
        refine ⟨List.mem_cons_self _ _, ?_⟩
        by_cases hacc : accepts (lookupEl els k) p
        · exact hacc
        · exfalso
          have hkeep : (applyEntry els k (ElementOrDeleted.elem p)).2 = false := by
            cases hcur : lookupEl els k with
            | none => simp [accepts, hcur] at hacc
            | some e =>
              have : ¬ e.updated < p.updated := by
                simpa [accepts, hcur] using hacc
              simp [applyEntry, hcur, this]
          simp only [patchElementsGo, hkeep, Bool.false_eq_true, if_false] at hx
          exact hnotrest (diff_subset_entries rest _ _ hx)
      · rintro ⟨-, hacc⟩
        have hkeep : (applyEntry els k (ElementOrDeleted.elem p)).2 = true := by
          cases hcur : lookupEl els k with
          | none => simp [applyEntry, hcur]
          | some e =>
            have : e.updated < p.updated := by simpa [accepts, hcur] using hacc
            simp [applyEntry, hcur, this]
        simp [patchElementsGo, hkeep]
    · have hmem_iff : (i, ElementOrDeleted.elem p) ∈ (k, w) :: rest
          ↔ (i, ElementOrDeleted.elem p) ∈ rest := by
        constructor
        · intro hx
          rcases List.mem_cons.mp hx with hx | hx
          · exact absurd hx.symm hhead
          · exact hx
        · exact List.mem_cons_of_mem _
      by_cases hki : k = i
      · subst hki
        have hnotrest : (k, ElementOrDeleted.elem p) ∉ rest := by
          intro hc
          exact hknot (by simpa [entryKeys] using List.mem_map_of_mem Prod.fst hc)
        constructor
        · intro hx
          exfalso
          have hx' : (k, ElementOrDeleted.elem p) ∈ (patchElementsGo els ((k, w) :: rest)).2 := hx
          have := diff_subset_entries _ _ _ hx'
          rcases List.mem_cons.mp this with h | h
          · exact hhead h.symm
          · exact hnotrest h
        · rintro ⟨hx, -⟩
          exact absurd (hmem_iff.mp hx) hnotrest
      · have hlook : lookupEl (applyEntry els k w).1 i = lookupEl els i :=
          lookupEl_applyEntry_ne els k i w hki
        by_cases hkeep : (applyEntry els k w).2
        · simp only [patchElementsGo, hkeep, if_true]
          constructor
          · intro hx
            rcases List.mem_cons.mp hx with hx | hx
            · exact absurd hx.symm hhead
            · have := (ih _ hnd').mp hx
              exact ⟨List.mem_cons_of_mem _ this.1, hlook ▸ this.2⟩
          · rintro ⟨hx, hacc⟩
            have hx' := hmem_iff.mp hx
            exact List.mem_cons_of_mem _
              ((ih _ hnd').mpr ⟨hx', hlook ▸ hacc⟩)
        · simp only [Bool.not_eq_true] at hkeep
          simp only [patchElementsGo, hkeep, Bool.false_eq_true, if_false]
          constructor
          · intro hx
            have := (ih _ hnd').mp hx
            exact ⟨List.mem_cons_of_mem _ this.1, hlook ▸ this.2⟩
          · rintro ⟨hx, hacc⟩
            exact (ih _ hnd').mpr ⟨hmem_iff.mp hx, hlook ▸ hacc⟩

-- Sequences of field-level merge calls ------------------------------------

/-- The element map after a sequence of field-level merge calls
(each call is one `patch` invocation with a record of entries). -/
def applyCalls : Elements → List (List (String × ElementOrDeleted)) → Elements
  | els, [] => els
  | els, call :: calls => applyCalls (patchElementsGo els call).1 calls

/-- The values offered for key `i` by one call, in entry order. -/
def entriesFor (i : String) : List (String × ElementOrDeleted) → List ElementOrDeleted
  | [] => []
  | (k, v) :: rest => if k = i then v :: entriesFor i rest else entriesFor i rest

/-- The values offered for key `i` across a sequence of calls, in order. -/
def offersFor (i : String) : List (List (String × ElementOrDeleted)) → List ElementOrDeleted
  | [] => []
  | call :: calls => entriesFor i call ++ offersFor i calls

/-- The per-key last-writer-wins automaton: fold the per-entry transition. -/
def lwwFold : Option ExcalidrawElement → List ElementOrDeleted → Option ExcalidrawElement
  | s, [] => s
  | s, v :: vs => lwwFold (applyEntryLookup s v) vs

/-- Does the value list contain a tombstone? -/
def hasTomb : List ElementOrDeleted → Bool
  | [] => false
  | .deleted :: _ => true
  | .elem _ :: vs => hasTomb vs

/-- The `updated` stamps offered strictly after the last tombstone
(all of them when there is no tombstone). -/
def liveOffers : List ElementOrDeleted → List Int
  | [] => []
  | .deleted :: vs => liveOffers vs
  | .elem p :: vs => if hasTomb vs then liveOffers vs else p.updated :: liveOffers vs

/-- All `updated` stamps ever offered, tombstones skipped. -/
def allOffers : List ElementOrDeleted → List Int
  | [] => []
  | .deleted :: vs => allOffers vs
  | .elem p :: vs => p.updated :: allOffers vs

/-- Maximum of a list of stamps, `none` on the empty list. -/
def listMax : List Int → Option Int
  | [] => none
  | x :: xs =>
    match listMax xs with
    | none => some x
    | some m => some (max x m)

/-- The stamp carried by an optional stored element, as a list. -/
def optUpd : Option ExcalidrawElement → List Int
  | none => []
  | some e => [e.updated]

theorem entriesFor_of_not_mem (call : List (String × ElementOrDeleted)) (i : String)
    (h : i ∉ entryKeys call) : entriesFor i call = [] := by
  induction call with
  | nil => rfl
  | cons kv rest ih =>
    obtain ⟨k, v⟩ := kv
    have hk : k ≠ i := fun hki => h (by simp [entryKeys, hki])
    have hr : i ∉ entryKeys rest := fun hc => h (by simp [entryKeys] at hc ⊢; exact Or.inr hc)
    simp [entriesFor, hk, ih hr]

theorem entriesFor_of_mem (call : List (String × ElementOrDeleted)) (i : String)
    (v : ElementOrDeleted) (hnd : (entryKeys call).Nodup) (hmem : (i, v) ∈ call) :
    entriesFor i call = [v] := by
  induction call with
  | nil => cases hmem
  | cons kv rest ih =>
    obtain ⟨k, w⟩ := kv
    have hnd2 : (k :: entryKeys rest).Nodup := by
      simpa [entryKeys] using hnd
    have hnd' : (entryKeys rest).Nodup := (List.nodup_cons.mp hnd2).2
    have hknot : k ∉ entryKeys rest := (List.nodup_cons.mp hnd2).1
    rcases List.mem_cons.mp hmem with hhead | htail
    · obtain ⟨hik, hvw⟩ := Prod.mk.injEq .. ▸ hhead
      subst hik; subst hvw
      have : entriesFor i rest = [] :=
        entriesFor_of_not_mem rest i hknot
      simp [entriesFor, this]
    · have hki : k ≠ i := by
        intro hk; subst hk
        exact hknot (by simpa [entryKeys] using List.mem_map_of_mem Prod.fst htail)
      simpa [entriesFor, hki] using ih hnd' htail

/-- Per call, per key: the stored binding evolves by the LWW automaton on the
values that call offered for the key (distinct keys per call). -/
theorem lookupEl_patchElementsGo_lww (call : List (String × ElementOrDeleted))
    (els : Elements) (i : String) (hnd : (entryKeys call).Nodup) :
    lookupEl (patchElementsGo els call).1 i
      = lwwFold (lookupEl els i) (entriesFor i call) := by
  by_cases hmem : i ∈ entryKeys call
  · obtain ⟨⟨k, v⟩, hkv, hk⟩ := List.mem_map.mp hmem
    have hk' : k = i := hk
    subst hk'
    rw [entriesFor_of_mem call k v hnd hkv]
    simpa [lwwFold] using lookupEl_patchElementsGo_mem call els k v hnd hkv
  · rw [entriesFor_of_not_mem call i hmem]
    simpa [lwwFold] using lookupEl_patchElementsGo_not_mem call els i hmem

theorem lwwFold_append (a b : List ElementOrDeleted) (s : Option ExcalidrawElement) :
    lwwFold s (a ++ b) = lwwFold (lwwFold s a) b := by
  induction a generalizing s with
  | nil => rfl
  | cons v vs ih => simp [lwwFold, ih]

/-- Across a whole sequence of calls: the final binding of each key is the LWW
automaton run over everything offered for that key. -/
theorem lookupEl_applyCalls_lww (calls : List (List (String × ElementOrDeleted)))
    (els : Elements) (i : String)
    (hnd : ∀ call ∈ calls, (entryKeys call).Nodup) :
    lookupEl (applyCalls els calls) i = lwwFold (lookupEl els i) (offersFor i calls) := by
  induction calls generalizing els with
  | nil => rfl
  | cons call calls ih =>
    have h1 := lookupEl_patchElementsGo_lww call els i (hnd call (List.mem_cons_self _ _))
    have h2 := ih (patchElementsGo els call).1
      (fun c hc => hnd c (List.mem_cons_of_mem _ hc))
    rw [applyCalls, h2, h1, offersFor, lwwFold_append]

theorem listMax_cons_cons (a b : Int) (l : List Int) :
    listMax (a :: b :: l) = listMax (max a b :: l) := by
  cases hl : listMax l with
  | none => simp [listMax, hl]
  | some m => simp [listMax, hl, max_assoc]

/-- The LWW automaton computes the maximum stamp offered after the last
tombstone (with the initial binding participating when no tombstone occurs). -/
theorem lwwFold_updated (vs : List ElementOrDeleted) (s : Option ExcalidrawElement) :
    Option.map ExcalidrawElement.updated (lwwFold s vs)
      = listMax ((if hasTomb vs then [] else optUpd s) ++ liveOffers vs) := by
  induction vs generalizing s with
  | nil =>
    cases s with
    | none => simp [lwwFold, hasTomb, liveOffers, optUpd, listMax]
    | some e => simp [lwwFold, hasTomb, liveOffers, optUpd, listMax]
  | cons v vs ih =>
    cases v with
    | deleted =>
      have := ih none
      simpa [lwwFold, applyEntryLookup, hasTomb, liveOffers, optUpd] using this
    | elem p =>
      by_cases ht : hasTomb vs
      · have := ih (applyEntryLookup s (ElementOrDeleted.elem p))
        simpa [lwwFold, hasTomb, liveOffers, ht] using this
      · have hih := ih (applyEntryLookup s (ElementOrDeleted.elem p))
        rw [if_neg ht] at hih
        have hgoal : hasTomb (ElementOrDeleted.elem p :: vs) = hasTomb vs := rfl
        rw [lwwFold, hih, hgoal, if_neg ht]
        cases s with
        | none => simp [applyEntryLookup, optUpd, liveOffers, ht]
        | some e =>
          by_cases hu : e.updated < p.updated
          · have hmax : max e.updated p.updated = p.updated := max_eq_right (le_of_lt hu)
            rw [show optUpd (applyEntryLookup (some e) (ElementOrDeleted.elem p))
                  = [p.updated] by simp [applyEntryLookup, hu, optUpd]]
            simp only [liveOffers, if_neg ht, optUpd]
            rw [show ([e.updated] ++ p.updated :: liveOffers vs)
                  = e.updated :: p.updated :: liveOffers vs from rfl,
              listMax_cons_cons, hmax]
            rfl
          · have hmax : max e.updated p.updated = e.updated :=
              max_eq_left (le_of_not_lt hu)
            rw [show optUpd (applyEntryLookup (some e) (ElementOrDeleted.elem p))
                  = [e.updated] by simp [applyEntryLookup, hu, optUpd]]
            simp only [liveOffers, if_neg ht, optUpd]
            rw [show ([e.updated] ++ p.updated :: liveOffers vs)
                  = e.updated :: p.updated :: liveOffers vs from rfl,
              listMax_cons_cons, hmax]
            rfl

-- C1 ----------------------------------------------------------------------

/-- C1 counterexample: it is NOT true that after an arbitrary sequence of
successful field-level merges every stored element carries the highest
`updated` ever offered for its id and every tombstoned id is absent.
Offering `updated 5`, then a tombstone, then `updated 3` for the same id
leaves the id present with stamp 3 (not the highest-ever 5), refuting the
universally quantified claim. -/
theorem c1_counterexample :
    ¬ (∀ calls : List (List (String × ElementOrDeleted)),
        (∀ call ∈ calls, (entryKeys call).Nodup) →
        ∀ i : String,
          (∀ e, lookupEl (applyCalls [] calls) i = some e →
            some e.updated = listMax (allOffers (offersFor i calls)))
          ∧ (hasTomb (offersFor i calls) = true →
            lookupEl (applyCalls [] calls) i = none)) := by
  intro h
  have h2 := (h [[("a", ElementOrDeleted.elem ⟨"a", 5⟩)],
      [("a", ElementOrDeleted.deleted)],
      [("a", ElementOrDeleted.elem ⟨"a", 3⟩)]] (by decide) "a").2
  have h3 := h2 (by decide)
  exact absurd h3 (by decide)

/-- C1 (amended): per entry of one field-level merge (a record, so keys are
distinct): a tombstone removes the element unconditionally; a replacement is
accepted iff no element with that id exists or its `updated` is strictly
greater; a stale replacement leaves the element unchanged.  Consequently,
after any sequence of merges starting from the empty store, each stored
element carries the highest `updated` offered for its id SINCE THAT ID'S LAST
TOMBSTONE (ever, if never tombstoned), and every id with no offer after its
last tombstone is absent. -/
theorem c1_amended :
    (∀ (st : SceneState) (entries : List (String × ElementOrDeleted)) (i : String)
        (p : ExcalidrawElement),
      (entryKeys entries).Nodup →
        ((i, ElementOrDeleted.deleted) ∈ entries →
            lookupEl (patchFields st entries).state.elements i = none)
        ∧ ((i, ElementOrDeleted.elem p) ∈ entries → lookupEl st.elements i = none →
            lookupEl (patchFields st entries).state.elements i = some p)
        ∧ (∀ e, (i, ElementOrDeleted.elem p) ∈ entries →
            lookupEl st.elements i = some e → e.updated < p.updated →
            lookupEl (patchFields st entries).state.elements i = some p)
        ∧ (∀ e, (i, ElementOrDeleted.elem p) ∈ entries →
            lookupEl st.elements i = some e → ¬ e.updated < p.updated →
            lookupEl (patchFields st entries).state.elements i = some e))
    ∧ (∀ calls : List (List (String × ElementOrDeleted)),
        (∀ call ∈ calls, (entryKeys call).Nodup) →
        ∀ i : String,
          Option.map ExcalidrawElement.updated (lookupEl (applyCalls [] calls) i)
            = listMax (liveOffers (offersFor i calls))
          ∧ (liveOffers (offersFor i calls) = [] →
              lookupEl (applyCalls [] calls) i = none)) := by
  constructor
  · intro st entries i p hnd
    have hfix : (patchFields st entries).state.elements
        = (patchElementsGo st.elements entries).1 := rfl
    refine ⟨?_, ?_, ?_, ?_⟩
    · intro hmem
      rw [hfix, lookupEl_patchElementsGo_mem entries st.elements i _ hnd hmem]
      rfl
    · intro hmem hnone
      rw [hfix, lookupEl_patchElementsGo_mem entries st.elements i _ hnd hmem,
        hnone]
      rfl
    · intro e hmem hsome hlt
      rw [hfix, lookupEl_patchElementsGo_mem entries st.elements i _ hnd hmem,
        hsome]
      simp [applyEntryLookup, hlt]
    · intro e hmem hsome hlt
      rw [hfix, lookupEl_patchElementsGo_mem entries st.elements i _ hnd hmem,
        hsome]
      simp [applyEntryLookup, hlt]
  · intro calls hnd i
    have hrun : lookupEl (applyCalls [] calls) i
        = lwwFold none (offersFor i calls) := by
      simpa [lookupEl] using lookupEl_applyCalls_lww calls [] i hnd
    have hmax : Option.map ExcalidrawElement.updated (lookupEl (applyCalls [] calls) i)
        = listMax (liveOffers (offersFor i calls)) := by
      rw [hrun, lwwFold_updated]
      by_cases ht : hasTomb (offersFor i calls) <;> simp [ht, optUpd]
    refine ⟨hmax, fun hempty => ?_⟩
    have : Option.map ExcalidrawElement.updated (lookupEl (applyCalls [] calls) i)
        = none := by rw [hmax, hempty]; rfl
    cases hc : lookupEl (applyCalls [] calls) i with
    | none => rfl
    | some e => rw [hc] at this; cases this

/-- Witness for `c1_amended` at concrete inputs: an accepted fresher
replacement, and the sequence invariant on a one-call sequence. -/
theorem c1_amended_witness :
    lookupEl (patchFields ⟨[("a", ⟨"a", 5⟩)], 0⟩
        [("a", ElementOrDeleted.elem ⟨"a", 7⟩)]).state.elements "a"
      = some ⟨"a", 7⟩
    ∧ Option.map ExcalidrawElement.updated
        (lookupEl (applyCalls [] [[("a", ElementOrDeleted.elem ⟨"a", 5⟩)]]) "a")
      = listMax (liveOffers (offersFor "a" [[("a", ElementOrDeleted.elem ⟨"a", 5⟩)]])) := by
  constructor
  · exact (c1_amended.1 ⟨[("a", ⟨"a", 5⟩)], 0⟩
      [("a", ElementOrDeleted.elem ⟨"a", 7⟩)] "a" ⟨"a", 7⟩ (by decide)).2.2.1
      ⟨"a", 5⟩ (by decide) (by decide) (by decide)
  · exact (c1_amended.2 [[("a", ElementOrDeleted.elem ⟨"a", 5⟩)]] (by decide) "a").1

-- C10 ---------------------------------------------------------------------

/-- C10: a field-level merge containing a tombstone for an id absent from the
store still succeeds: deleting the missing key is a no-op on the element map,
the version still advances, the result is not a conflict, and the tombstone is
still included in the emitted `scene-elements-diff` payload.  For the
single-entry call the stored map is completely unchanged. -/
theorem c10_absent_tombstone (st : SceneState)
    (entries : List (String × ElementOrDeleted)) (i : String)
    (hnone : lookupEl st.elements i = none)
    (hmem : (i, ElementOrDeleted.deleted) ∈ entries) :
    eraseEl st.elements i = st.elements
    ∧ (patchFields st entries).state.version = st.version + 1
    ∧ (patchFields st entries).response.conflict = false
    ∧ (patchFields st entries).events
        = [CollabEvent.sceneElementsDiff (st.version + 1)
            (patchElementsGo st.elements entries).2]
    ∧ (i, ElementOrDeleted.deleted) ∈ (patchElementsGo st.elements entries).2
    ∧ (entries = [(i, ElementOrDeleted.deleted)] →
        (patchFields st entries).state.elements = st.elements) := by
  refine ⟨eraseEl_of_lookup_none st.elements i hnone, rfl, rfl, rfl,
    tombstone_mem_diff entries st.elements i hmem, ?_⟩
  intro hsingleton
  subst hsingleton
  show (patchElementsGo st.elements [(i, ElementOrDeleted.deleted)]).1 = st.elements
  simp [patchElementsGo, applyEntry, eraseEl_of_lookup_none st.elements i hnone]

/-- Witness for `c10_absent_tombstone`: tombstoning `x` in an empty store. -/
theorem c10_absent_tombstone_witness :
    eraseEl (⟨[], 0⟩ : SceneState).elements "x" = (⟨[], 0⟩ : SceneState).elements
    ∧ (patchFields ⟨[], 0⟩ [("x", ElementOrDeleted.deleted)]).state.version = 0 + 1
    ∧ (patchFields ⟨[], 0⟩ [("x", ElementOrDeleted.deleted)]).response.conflict = false
    ∧ (patchFields ⟨[], 0⟩ [("x", ElementOrDeleted.deleted)]).events
        = [CollabEvent.sceneElementsDiff (0 + 1)
            (patchElementsGo ([] : Elements) [("x", ElementOrDeleted.deleted)]).2]
    ∧ ("x", ElementOrDeleted.deleted)
        ∈ (patchElementsGo ([] : Elements) [("x", ElementOrDeleted.deleted)]).2
    ∧ ([("x", ElementOrDeleted.deleted)] = [("x", ElementOrDeleted.deleted)] →
        (patchFields ⟨[], 0⟩ [("x", ElementOrDeleted.deleted)]).state.elements
          = (⟨[], 0⟩ : SceneState).elements) :=
  c10_absent_tombstone ⟨[], 0⟩ [("x", ElementOrDeleted.deleted)] "x" rfl
    (List.mem_cons_self _ _)

-- C4 ----------------------------------------------------------------------

/-- A call whose every entry is a stale replacement changes nothing and keeps
nothing for the diff. -/
theorem patchElementsGo_all_stale (entries : List (String × ElementOrDeleted))
    (els : Elements)
    (h : ∀ x ∈ entries, ∃ i p e, x = (i, ElementOrDeleted.elem p)
        ∧ lookupEl els i = some e ∧ ¬ e.updated < p.updated) :
    patchElementsGo els entries = (els, []) := by
  induction entries with
  | nil => rfl
  | cons kv rest ih =>
    obtain ⟨i, p, e, heq, hsome, hstale⟩ := h kv (List.mem_cons_self _ _)
    subst heq
    have hstep : applyEntry els i (ElementOrDeleted.elem p) = (els, false) := by
      simp [applyEntry, hsome, hstale]
    have := ih (fun x hx => h x (List.mem_cons_of_mem _ hx))
    simp [patchElementsGo, hstep, this]

/-- C4: every field-level merge emits exactly one `scene-elements-diff` event;
its diff holds exactly the accepted replacements and the tombstones of that
call, never a stale replacement; an all-stale call emits an empty diff and
leaves the element map untouched. -/
theorem c4_diff_event (st : SceneState)
    (entries : List (String × ElementOrDeleted))
    (hnd : (entryKeys entries).Nodup) :
    (patchFields st entries).events
      = [CollabEvent.sceneElementsDiff (st.version + 1)
          (patchElementsGo st.elements entries).2]
    ∧ (∀ i p, (i, ElementOrDeleted.elem p) ∈ (patchElementsGo st.elements entries).2
        ↔ (i, ElementOrDeleted.elem p) ∈ entries
          ∧ accepts (lookupEl st.elements i) p)
    ∧ (∀ i, (i, ElementOrDeleted.deleted) ∈ (patchElementsGo st.elements entries).2
        ↔ (i, ElementOrDeleted.deleted) ∈ entries)
    ∧ (∀ i p e, (i, ElementOrDeleted.elem p) ∈ entries →
        lookupEl st.elements i = some e → ¬ e.updated < p.updated →
        (i, ElementOrDeleted.elem p) ∉ (patchElementsGo st.elements entries).2)
    ∧ ((∀ x ∈ entries, ∃ i p e, x = (i, ElementOrDeleted.elem p)
          ∧ lookupEl st.elements i = some e ∧ ¬ e.updated < p.updated) →
        (patchElementsGo st.elements entries).2 = []
        ∧ (patchFields st entries).state.elements = st.elements) := by
  refine ⟨rfl, ?_, ?_, ?_, ?_⟩
  · intro i p
    exact diff_elem_iff entries st.elements i p hnd
  · intro i
    exact ⟨fun hx => diff_subset_entries entries st.elements _ hx,
      fun hx => tombstone_mem_diff entries st.elements i hx⟩
  · intro i p e hmem hsome hstale hx
    have := ((diff_elem_iff entries st.elements i p hnd).mp hx).2
    rw [hsome] at this
    simp only [accepts] at this
    exact hstale (of_decide_eq_true this)
  · intro hall
    have := patchElementsGo_all_stale entries st.elements hall
    constructor
    · rw [this]
    · show (patchElementsGo st.elements entries).1 = st.elements
      rw [this]

/-- Witness for `c4_diff_event`: one fresh replacement and one stale one. -/
theorem c4_diff_event_witness :
    (patchFields ⟨[("a", ⟨"a", 5⟩)], 1⟩
        [("a", ElementOrDeleted.elem ⟨"a", 3⟩), ("b", ElementOrDeleted.elem ⟨"b", 2⟩)]).events
      = [CollabEvent.sceneElementsDiff (1 + 1)
          (patchElementsGo [("a", ⟨"a", 5⟩)]
            [("a", ElementOrDeleted.elem ⟨"a", 3⟩), ("b", ElementOrDeleted.elem ⟨"b", 2⟩)]).2]
    ∧ ("a", ElementOrDeleted.elem ⟨"a", 3⟩)
        ∉ (patchElementsGo [("a", ⟨"a", 5⟩)]
            [("a", ElementOrDeleted.elem ⟨"a", 3⟩), ("b", ElementOrDeleted.elem ⟨"b", 2⟩)]).2 := by
  refine ⟨(c4_diff_event ⟨[("a", ⟨"a", 5⟩)], 1⟩ _ (by decide)).1, ?_⟩
  exact (c4_diff_event ⟨[("a", ⟨"a", 5⟩)], 1⟩
      [("a", ElementOrDeleted.elem ⟨"a", 3⟩), ("b", ElementOrDeleted.elem ⟨"b", 2⟩)]
      (by decide)).2.2.2.1 "a" ⟨"a", 3⟩ ⟨"a", 5⟩
    (List.mem_cons_self _ _) (by decide) (by decide)

-- Structural merge (jsonPatch) --------------------------------------------

/-- Modelled from the spec: the generic JSON-patch language applied by
`fast-json-patch` (`fjp.applyReducer`), whose implementation is an external
dependency not under src/.  Per spec §4.4 the structural merge "accepts an
ordered sequence of generic patch operations (add/replace/remove/test)
applied to the whole scene document"; operations here address the element
map by id. -/
inductive JsonOp where
  | add (i : String) (e : ExcalidrawElement)
  | replace (i : String) (e : ExcalidrawElement)
  | remove (i : String)
  | test (i : String) (e : Option ExcalidrawElement)
deriving DecidableEq, Repr

/-- Modelled from the spec: one JSON-patch operation; a failed precondition
(a `test` mismatch, or replace/remove of a missing target) raises, which the
caller observes as the thrown error of `ops.reduce(fjp.applyReducer, ...)`. -/
def applyOp : Elements → JsonOp → Except Unit Elements
  | els, .add i e => .ok (setEl els i e)
  | els, .replace i e =>
    match lookupEl els i with
    | none => .error ()
    | some _ => .ok (setEl els i e)
  | els, .remove i =>
    match lookupEl els i with
    | none => .error ()
    | some _ => .ok (eraseEl els i)
  | els, .test i e => if lookupEl els i = e then .ok els else .error ()

/-- Modelled from the spec: `ops.reduce(fjp.applyReducer, sceneData)` —
sequential application, stopping at the first failing operation ("if any
operation's precondition fails ... the entire sequence is rejected", §4.4). -/
def applyOps : Elements → List JsonOp → Except Unit Elements
  | els, [] => .ok els
  | els, op :: ops =>
    match applyOp els op with
    | .ok els2 => applyOps els2 ops
    | .error e => .error e

/-- `ExcalidrawCollab.jsonPatch` (src/collab.ts): on success bump the version,
store the new scene, trigger the throttled save and notify one
`scene-elements-synced` event; on a thrown patch error return the current
scene and version with `conflict: true`, with no event and no save. -/
def jsonPatch (st : SceneState) (ops : List JsonOp) : PatchOutcome :=
  match applyOps st.elements ops with
  | .ok els2 =>
    { state := ⟨els2, st.version + 1⟩
      response := ⟨els2, st.version + 1, false⟩
      events := [.sceneElementsSynced els2 (st.version + 1)]
      saveTriggered := true }
  | .error _ =>
    { state := st
      response := ⟨st.elements, st.version, true⟩
      events := []
      saveTriggered := false }

-- C3 ----------------------------------------------------------------------

/-- C3: if any operation of a structural merge fails, the whole call is
rejected atomically — the stored state (elements and version) is exactly what
it was, the response is the prior scene with `conflict: true`, no event is
emitted and no save is triggered. -/
theorem c3_conflict_atomic (st : SceneState) (ops : List JsonOp)
    (h : applyOps st.elements ops = .error ()) :
    (jsonPatch st ops).state = st
    ∧ (jsonPatch st ops).response = ⟨st.elements, st.version, true⟩
    ∧ (jsonPatch st ops).events = []
    ∧ (jsonPatch st ops).saveTriggered = false := by
  simp [jsonPatch, h]

/-- Witness for `c3_conflict_atomic`: a failing `test` op against an empty store. -/
theorem c3_conflict_atomic_witness :
    (jsonPatch ⟨[], 4⟩ [JsonOp.test "a" (some ⟨"a", 1⟩)]).state = ⟨[], 4⟩
    ∧ (jsonPatch ⟨[], 4⟩ [JsonOp.test "a" (some ⟨"a", 1⟩)]).response = ⟨[], 4, true⟩
    ∧ (jsonPatch ⟨[], 4⟩ [JsonOp.test "a" (some ⟨"a", 1⟩)]).events = []
    ∧ (jsonPatch ⟨[], 4⟩ [JsonOp.test "a" (some ⟨"a", 1⟩)]).saveTriggered = false :=
  c3_conflict_atomic ⟨[], 4⟩ [JsonOp.test "a" (some ⟨"a", 1⟩)] rfl

-- C2 ----------------------------------------------------------------------

/-- C2: the version increases by exactly 1 on every call to either merge entry
point — including empty input, which still emits its one event — and does not
change on a structural merge rejected with a conflict. -/
theorem c2_version (st : SceneState) :
    (∀ entries, (patchFields st entries).state.version = st.version + 1
      ∧ (patchFields st entries).response.version = st.version + 1)
    ∧ (∀ ops els2, applyOps st.elements ops = .ok els2 →
        (jsonPatch st ops).state.version = st.version + 1
        ∧ (jsonPatch st ops).response.version = st.version + 1)
    ∧ (∀ ops, applyOps st.elements ops = .error () →
        (jsonPatch st ops).state.version = st.version
        ∧ (jsonPatch st ops).response.version = st.version)
    ∧ (patchFields st []).state.version = st.version + 1
    ∧ (jsonPatch st []).state.version = st.version + 1
    ∧ (patchFields st []).events.length = 1
    ∧ (jsonPatch st []).events.length = 1 := by
  refine ⟨fun entries => ⟨rfl, rfl⟩, ?_, ?_, rfl, ?_, rfl, ?_⟩
  · intro ops els2 h
    constructor <;> simp [jsonPatch, h]
  · intro ops h
    constructor <;> simp [jsonPatch, h]
  · show (jsonPatch st []).state.version = st.version + 1
    simp [jsonPatch, applyOps]
  · show (jsonPatch st []).events.length = 1
    simp [jsonPatch, applyOps]

/-- Witness for `c2_version`: a successful empty structural merge bumps 0→1 and
a failing one leaves the version at 5. -/
theorem c2_version_witness :
    ((jsonPatch ⟨[], 0⟩ ([] : List JsonOp)).state.version = 0 + 1
      ∧ (jsonPatch ⟨[], 0⟩ ([] : List JsonOp)).response.version = 0 + 1)
    ∧ ((jsonPatch ⟨[], 5⟩ [JsonOp.test "a" (some ⟨"a", 1⟩)]).state.version = 5
      ∧ (jsonPatch ⟨[], 5⟩ [JsonOp.test "a" (some ⟨"a", 1⟩)]).response.version = 5) :=
  ⟨(c2_version ⟨[], 0⟩).2.1 [] [] rfl,
    (c2_version ⟨[], 5⟩).2.2.1 [JsonOp.test "a" (some ⟨"a", 1⟩)] rfl⟩

-- throttle (src/util.ts) --------------------------------------------------

/-- Closure state of `throttle` (src/util.ts): `lastCall` (updated to the
current time whenever the wrapped `fn` actually runs) and `timeoutId`,
represented by the scheduled fire time of the pending deferred run. -/
structure ThrottleState where
  lastCall : Nat
  timer : Option Nat
deriving DecidableEq, Repr

/-- One invocation of the function returned by `throttle` at clock `now`
(src/util.ts): if `now - lastCall >= delay` run `fn` immediately (clearing any
pending timer); else if no timer is pending, schedule one for
`delay - (now - lastCall)` from now; else do nothing.  The boolean reports
whether `fn` ran during this invocation. -/
def throttleCall (delay now : Nat) (s : ThrottleState) : ThrottleState × Bool :=
  if delay ≤ now - s.lastCall then
    (⟨now, none⟩, true)
  else
    match s.timer with
    | none => (⟨s.lastCall, some (now + (delay - (now - s.lastCall)))⟩, false)
    | some _ => (s, false)

/-- The `setTimeout` callback firing (src/util.ts): set `lastCall` to the
current time (the scheduled fire time), clear the timer, run `fn`. -/
def throttleFire (s : ThrottleState) : ThrottleState × Bool :=
  match s.timer with
  | some f => (⟨f, none⟩, true)
  | none => (s, false)

/-- Events driving the throttle closure: an invocation at time `t`, or the
pending timer firing at its scheduled time. -/
inductive ThrottleEvent where
  | call (t : Nat)
  | fire
deriving DecidableEq, Repr

/-- A run of the throttle closure: its state plus the times of the actual
`fn` executions, most recent first. -/
structure ThrottleRun where
  tstate : ThrottleState
  writes : List Nat
deriving DecidableEq, Repr

def throttleStep (delay : Nat) (r : ThrottleRun) : ThrottleEvent → ThrottleRun
  | .call t =>
    let s := throttleCall delay t r.tstate
    { tstate := s.1, writes := if s.2 then t :: r.writes else r.writes }
  | .fire =>
    match r.tstate.timer with
    | some f => { tstate := ⟨f, none⟩, writes := f :: r.writes }
    | none => r

/-- Run the throttle closure from its initial state
(`lastCall = 0`, no timer, nothing written yet). -/
def throttleRunAll (delay : Nat) (evs : List ThrottleEvent) : ThrottleRun :=
  evs.foldl (throttleStep delay) ⟨⟨0, none⟩, []⟩

/-- Time of the most recent actual write, `0` before any write. -/
def lastWrite : List Nat → Nat
  | [] => 0
  | w :: _ => w

theorem throttleStep_lastCall (delay : Nat) (r : ThrottleRun) (ev : ThrottleEvent)
    (h : r.tstate.lastCall = lastWrite r.writes) :
    (throttleStep delay r ev).tstate.lastCall
      = lastWrite (throttleStep delay r ev).writes := by
  cases ev with
  | call t =>
    by_cases hd : delay ≤ t - r.tstate.lastCall
    · simp [throttleStep, throttleCall, hd, lastWrite]
    · cases ht : r.tstate.timer with
      | none => simpa [throttleStep, throttleCall, hd, ht] using h
      | some f => simpa [throttleStep, throttleCall, hd, ht] using h
  | fire =>
    cases ht : r.tstate.timer with
    | none => simpa [throttleStep, ht] using h
    | some f => simp [throttleStep, ht, lastWrite]

theorem throttleRunAll_lastCall (delay : Nat) (evs : List ThrottleEvent) :
    (throttleRunAll delay evs).tstate.lastCall
      = lastWrite (throttleRunAll delay evs).writes := by
  suffices hgen : ∀ r : ThrottleRun, r.tstate.lastCall = lastWrite r.writes →
      (evs.foldl (throttleStep delay) r).tstate.lastCall
        = lastWrite (evs.foldl (throttleStep delay) r).writes by
    exact hgen ⟨⟨0, none⟩, []⟩ rfl
  induction evs with
  | nil => exact fun r h => h
  | cons ev evs ih =>
    intro r h
    exact ih _ (throttleStep_lastCall delay r ev h)

-- C9 ----------------------------------------------------------------------

/-- C9: the debounced persistence wrapper.  A call at least `delay` after the
last actual write runs the write immediately; an earlier call with no pending
timer schedules exactly one deferred write at `delay` after the last write;
calls while a timer is pending change nothing (coalesced); every call either
writes now or leaves a timer pending, so the trailing write is never lost; and
along any run `lastCall` is precisely the time of the last actual write. -/
theorem c9_throttle (delay now : Nat) (s : ThrottleState)
    (hmono : s.lastCall ≤ now) :
    (delay ≤ now - s.lastCall → throttleCall delay now s = (⟨now, none⟩, true))
    ∧ (now - s.lastCall < delay → s.timer = none →
        throttleCall delay now s = (⟨s.lastCall, some (s.lastCall + delay)⟩, false))
    ∧ (∀ f, now - s.lastCall < delay → s.timer = some f →
        throttleCall delay now s = (s, false))
    ∧ ((throttleCall delay now s).2 = true
        ∨ (throttleCall delay now s).1.timer ≠ none)
    ∧ (∀ evs : List ThrottleEvent,
        (throttleRunAll delay evs).tstate.lastCall
          = lastWrite (throttleRunAll delay evs).writes) := by
  refine ⟨?_, ?_, ?_, ?_, throttleRunAll_lastCall delay⟩
  · intro hd
    simp [throttleCall, hd]
  · intro hd ht
    have hd2 : ¬ delay ≤ now - s.lastCall := by omega
    have harith : now + (delay - (now - s.lastCall)) = s.lastCall + delay := by omega
    simp [throttleCall, hd2, ht, harith]
  · intro f hd ht
    have hd2 : ¬ delay ≤ now - s.lastCall := by omega
    simp [throttleCall, hd2, ht]
  · by_cases hd : delay ≤ now - s.lastCall
    · left
      simp [throttleCall, hd]
    · right
      cases ht : s.timer with
      | none => simp [throttleCall, hd, ht]
      | some f => simp [throttleCall, hd, ht]

/-- Witness for `c9_throttle`: with `delay = 10000`, a call at `t = 20000`
after a write at `0` runs immediately; a call at `25000` after a write at
`20000` defers to `30000 = 20000 + 10000`. -/
theorem c9_throttle_witness :
    throttleCall 10000 20000 ⟨0, none⟩ = (⟨20000, none⟩, true)
    ∧ throttleCall 10000 25000 ⟨20000, none⟩
      = (⟨20000, some (20000 + 10000)⟩, false) :=
  ⟨(c9_throttle 10000 20000 ⟨0, none⟩ (by decide)).1 (by decide),
    (c9_throttle 10000 25000 ⟨20000, none⟩ (by decide)).2.1 (by decide) rfl⟩

-- C6 ----------------------------------------------------------------------

/-- What one field-level `patch` call looks like to its caller once composed
with `throttledSaveState` (src/collab.ts constructor + src/util.ts throttle):
`result` is what the caller of `patch` observes; `saveOutcomes` are the
results of the async save bodies started during the call — `throttle` invokes
`fn(...args)` and drops the returned promise, and `patch` returns `nextState`
synchronously, so a save outcome has no path into `result`. -/
structure PatchWithSaveOutcome where
  result : Except String PatchResponse
  throttle : ThrottleState
  saveOutcomes : List (Except String Unit)

/-- The record overload of `ExcalidrawCollab.patch` together with its
`this.throttledSaveState()` call at clock `now`: the element merge runs, the
throttle decides whether the save body (`state.storage.put`, modelled by
`save`) runs now, and the response is returned to the caller unconditionally. -/
def patchFieldsWithSave (delay now : Nat) (ts : ThrottleState) (st : SceneState)
    (entries : List (String × ElementOrDeleted))
    (save : SceneState → Except String Unit) : PatchWithSaveOutcome :=
  let o := patchFields st entries
  let tc := throttleCall delay now ts
  { result := .ok o.response
    throttle := tc.1
    saveOutcomes := if tc.2 then [save o.state] else [] }

/-- C6 counterexample: a `patch` whose triggered durable save fails still
returns its normal success response to the caller; the storage failure is
dropped by the throttle wrapper, never propagated. -/
theorem c6_counterexample :
    (patchFieldsWithSave 10000 20000 ⟨0, none⟩ ⟨[], 0⟩
        [("a", ElementOrDeleted.elem ⟨"a", 1⟩)]
        (fun _ => Except.error "disk full")).saveOutcomes
      = [Except.error "disk full"]
    ∧ (patchFieldsWithSave 10000 20000 ⟨0, none⟩ ⟨[], 0⟩
        [("a", ElementOrDeleted.elem ⟨"a", 1⟩)]
        (fun _ => Except.error "disk full")).result
      = Except.ok ⟨[("a", ⟨"a", 1⟩)], 1, false⟩
    ∧ ¬ ∃ msg, (patchFieldsWithSave 10000 20000 ⟨0, none⟩ ⟨[], 0⟩
        [("a", ElementOrDeleted.elem ⟨"a", 1⟩)]
        (fun _ => Except.error "disk full")).result = Except.error msg := by
  refine ⟨rfl, rfl, ?_⟩
  rintro ⟨msg, h⟩
  exact Except.noConfusion h

/-- C6 (amended): the durable-save outcome does not propagate to the caller of
`patch`: the call always returns its normal versioned response, identical for
any save behaviour (the debounced wrapper discards the async save's result). -/
theorem c6_amended (delay now : Nat) (ts : ThrottleState) (st : SceneState)
    (entries : List (String × ElementOrDeleted))
    (save save2 : SceneState → Except String Unit) :
    (patchFieldsWithSave delay now ts st entries save).result
      = Except.ok (patchFields st entries).response
    ∧ (patchFieldsWithSave delay now ts st entries save).result
      = (patchFieldsWithSave delay now ts st entries save2).result :=
  ⟨rfl, rfl⟩

-- interleave (src/util.ts) ------------------------------------------------

/-- Loop state of `interleave` (src/util.ts): `iters` is the `iterators`
array — NEVER spliced by the code — with each source's remaining items, and
`pending` is the `nextPromises` array of already-begun `next()` calls, each
slot holding its settled result (`none` = that call reported done). -/
structure InterleaveState (α : Type) where
  iters : List (List α)
  pending : List (Option α)
deriving Repr

/-- `iterators[i].next()`: pop the head of source `i`; an exhausted (or
out-of-range) source keeps reporting done. -/
def itersNext (iters : List (List α)) (i : Nat) : Option α × List (List α) :=
  ((iters.getD i []).head?, iters.set i (iters.getD i []).tail)

/-- The `while (nextPromises.length > 0)` loop of `interleave` (src/util.ts).
`sched round` resolves that round's `Promise.race`: the position (into
`nextPromises`) of the promise settling first, clamped to range.  `fuel`
bounds the rounds to keep the function total; the boolean reports whether the
loop exited on its own (`true`).  A `done` winner is spliced out of
`nextPromises` only; a value is yielded and its slot replaced by
`iterators[index].next()` — with `index` being a position in the spliced
`nextPromises`, applied to the never-spliced `iterators`. -/
def interleaveGo (sched : Nat → Nat) : Nat → Nat → InterleaveState α → List α × Bool
  | 0, _, _ => ([], false)
  | fuel + 1, round, st =>
    if st.pending.isEmpty then ([], true)
    else
      match st.pending.getD (min (sched round) (st.pending.length - 1)) none with
      | none =>
        interleaveGo sched fuel (round + 1)
          ⟨st.iters, st.pending.eraseIdx (min (sched round) (st.pending.length - 1))⟩
      | some v =>
        let w := min (sched round) (st.pending.length - 1)
        let nx := itersNext st.iters w
        let r := interleaveGo sched fuel (round + 1) ⟨nx.2, st.pending.set w nx.1⟩
        (v :: r.1, r.2)

/-- `interleave(iterator1, iterator2)` (src/util.ts): start one `next()` per
source, then run the race loop. -/
def interleave (l1 l2 : List α) (sched : Nat → Nat) (fuel : Nat) : List α × Bool :=
  interleaveGo sched fuel 0 ⟨[l1.tail, l2.tail], [l1.head?, l2.head?]⟩

-- C5 ----------------------------------------------------------------------

/-- C5, evaluated at the failing input: with the first source exhausted from
the start (its `done` settles first) and the second source holding `1` then
`2`, the multiplexer yields only `[1]` and terminates of its own accord —
the remaining event `2` of the still-live source is lost and the stream ends
before all sources are exhausted, contradicting the claimed contract. -/
theorem c5_bug_eval :
    interleave ([] : List Nat) [1, 2] (fun _ => 0) 10 = ([1], true)
    ∧ (2 : Nat) ∉ (interleave ([] : List Nat) [1, 2] (fun _ => 0) 10).1 := by
  constructor
  · rfl
  · decide

-- join: self-echo filter (src/collab.ts) ----------------------------------

/-- Is this a `collaborator-updated` event whose payload id equals `selfId`?
(The skip condition of the `for await` loop in `ExcalidrawCollab.join`.) -/
def isSelfUpdate (selfId : String) : CollabEvent → Bool
  | .collaboratorUpdated c => c.id = some selfId
  | _ => false

/-- The `for await (const event of subscribe)` loop of `ExcalidrawCollab.join`
(src/collab.ts): `collaborator-updated` events carrying the joined client's
own id are skipped (`continue`); every other event is yielded. -/
def joinLoop (selfId : String) : List CollabEvent → List CollabEvent
  | [] => []
  | e :: es =>
    match e with
    | .collaboratorUpdated c =>
      if c.id = some selfId then joinLoop selfId es
      else CollabEvent.collaboratorUpdated c :: joinLoop selfId es
    | other => other :: joinLoop selfId es

/-- The full stream `join` delivers to a client: first the `scene-synced`
snapshot it yields, then the filtered live loop over whatever the
subscription delivers. -/
def joinStream (selfId : String) (st : SceneState)
    (roster : List (String × Collaborator)) (events : List CollabEvent) :
    List CollabEvent :=
  CollabEvent.sceneSynced st.elements roster st.version :: joinLoop selfId events

theorem joinLoop_eq_filter (selfId : String) (events : List CollabEvent) :
    joinLoop selfId events
      = events.filter (fun e => !(isSelfUpdate selfId e)) := by
  induction events with
  | nil => rfl
  | cons e es ih =>
    cases e with
    | collaboratorUpdated c =>
      by_cases hc : c.id = some selfId
      · simp [joinLoop, hc, isSelfUpdate, List.filter, ih]
      · simp [joinLoop, hc, isSelfUpdate, List.filter, ih]
    | sceneSynced els cs v => simp [joinLoop, isSelfUpdate, List.filter, ih]
    | collaboratorLeft i => simp [joinLoop, isSelfUpdate, List.filter, ih]
    | sceneElementsSynced els v => simp [joinLoop, isSelfUpdate, List.filter, ih]
    | sceneElementsDiff v d => simp [joinLoop, isSelfUpdate, List.filter, ih]

-- C7 ----------------------------------------------------------------------

/-- C7: the live stream `join` returns to client `selfId` never yields a
`collaborator-updated` event whose payload id is `selfId`; every other event
in the subscription — other event types, and updates for other ids — is
passed through (the loop is exactly a filter on the self-update predicate). -/
theorem c7_self_echo (selfId : String) (st : SceneState)
    (roster : List (String × Collaborator)) (events : List CollabEvent) :
    (∀ c, CollabEvent.collaboratorUpdated c ∈ joinStream selfId st roster events →
      c.id ≠ some selfId)
    ∧ (∀ e ∈ events, isSelfUpdate selfId e = false →
        e ∈ joinStream selfId st roster events)
    ∧ joinLoop selfId events
      = events.filter (fun e => !(isSelfUpdate selfId e)) := by
  refine ⟨?_, ?_, joinLoop_eq_filter selfId events⟩
  · intro c hmem hid
    rcases List.mem_cons.mp hmem with hhead | htail
    · cases hhead
    · rw [joinLoop_eq_filter] at htail
      have := List.of_mem_filter htail
      rw [show isSelfUpdate selfId (CollabEvent.collaboratorUpdated c)
            = decide (c.id = some selfId) from rfl, hid] at this
      simp at this
  · intro e hmem hnot
    refine List.mem_cons_of_mem _ ?_
    rw [joinLoop_eq_filter]
    exact List.mem_filter_of_mem hmem (by rw [hnot]; rfl)

/-- Witness for `c7_self_echo`: a roster update for another client is passed
through to client `me`. -/
theorem c7_self_echo_witness :
    CollabEvent.collaboratorUpdated ⟨some "you", none⟩
      ∈ joinStream "me" ⟨[], 0⟩ []
        [CollabEvent.collaboratorUpdated ⟨some "you", none⟩] :=
  (c7_self_echo "me" ⟨[], 0⟩ []
      [CollabEvent.collaboratorUpdated ⟨some "you", none⟩]).2.1
    (CollabEvent.collaboratorUpdated ⟨some "you", none⟩)
    (List.mem_cons_self _ _) (by decide)

-- Broadcast Channel and session roster ------------------------------------

/-- JS object read on the `_collaborators` roster. -/
def lookupCollab : List (String × Collaborator) → String → Option Collaborator
  | [], _ => none
  | (k, c) :: rest, i => if k = i then some c else lookupCollab rest i

/-- JS object write `this._collaborators[collab.id!] = collab`. -/
def setCollab : List (String × Collaborator) → String → Collaborator →
    List (String × Collaborator)
  | [], i, c => [(i, c)]
  | (k, d) :: rest, i, c =>
    if k = i then (i, c) :: rest else (k, d) :: setCollab rest i c

/-- JS `delete this._collaborators[collab.id!]`. -/
def eraseCollab : List (String × Collaborator) → String →
    List (String × Collaborator)
  | [], _ => []
  | (k, c) :: rest, i =>
    if k = i then eraseCollab rest i else (k, c) :: eraseCollab rest i

/-- Modelled from the spec: the Broadcast Channel (`WatchTarget` of
`@deco/actors/watch`, an external dependency not under src/).  Per spec §4.1:
`subscribe()` returns an independent sequence handle, `notify(event)` delivers
the event to every currently-subscribed handle in call order, and closing one
handle removes only that handle.  Each subscriber is a handle paired with the
queue of events delivered to it so far. -/
structure Broadcast where
  subs : List (Nat × List CollabEvent)
  nextHandle : Nat
deriving DecidableEq, Repr

/-- Modelled from the spec: `collabEvents.subscribe()` — register a fresh,
independent handle with an empty queue. -/
def bcSubscribe (b : Broadcast) : Broadcast × Nat :=
  (⟨b.subs ++ [(b.nextHandle, [])], b.nextHandle + 1⟩, b.nextHandle)

/-- Modelled from the spec: `collabEvents.notify(event)` — append the event to
every currently-subscribed handle's queue. -/
def bcNotify (b : Broadcast) (e : CollabEvent) : Broadcast :=
  ⟨b.subs.map (fun s => (s.1, s.2 ++ [e])), b.nextHandle⟩

/-- Modelled from the spec: closing a subscription handle — remove exactly
that handle, leaving the others untouched. -/
def bcUnsubscribe (b : Broadcast) (h : Nat) : Broadcast :=
  ⟨b.subs.filter (fun s => decide (s.1 ≠ h)), b.nextHandle⟩

/-- Queue delivered so far to a given handle. -/
def lookupQ : List (Nat × List CollabEvent) → Nat → Option (List CollabEvent)
  | [], _ => none
  | (k, q) :: rest, h => if k = h then some q else lookupQ rest h

/-- The collaborator roster plus the event channel of one `ExcalidrawCollab`. -/
structure CollabSession where
  collaborators : List (String × Collaborator)
  channel : Broadcast
deriving DecidableEq, Repr

/-- `ExcalidrawCollab.join` up to its first yield (src/collab.ts): subscribe,
then `set(collab)` (register under its id and notify `collaborator-updated`),
then yield the `scene-synced` snapshot of the current elements, roster and
version.  Returns the new session, the subscription handle, and the snapshot
event. -/
def joinStep (s : CollabSession) (st : SceneState) (cid : String)
    (c : Collaborator) : CollabSession × Nat × CollabEvent :=
  let sub := bcSubscribe s.channel
  let roster := setCollab s.collaborators cid c
  let chan := bcNotify sub.1 (.collaboratorUpdated c)
  (⟨roster, chan⟩, sub.2, .sceneSynced st.elements roster st.version)

/-- The `leave` cleanup that `join` installs on the subscription's `return`
(src/collab.ts), running when the client's handle is closed (abandoned or
cancelled): delete the collaborator from the roster, notify
`collaborator-left` with its id, then the wrapped original `return` closes
the handle itself. -/
def closeStep (s : CollabSession) (cid : String) (h : Nat) : CollabSession :=
  let roster := eraseCollab s.collaborators cid
  let chan := bcNotify s.channel (.collaboratorLeft cid)
  ⟨roster, bcUnsubscribe chan h⟩

theorem lookupCollab_eraseCollab_self (cs : List (String × Collaborator))
    (i : String) : lookupCollab (eraseCollab cs i) i = none := by
  induction cs with
  | nil => rfl
  | cons kc rest ih =>
    obtain ⟨k, c⟩ := kc
    by_cases h : k = i
    · simpa [eraseCollab, h] using ih
    · simpa [eraseCollab, lookupCollab, h] using ih

theorem lookupCollab_setCollab_ne (cs : List (String × Collaborator))
    (i j : String) (c : Collaborator) (h : i ≠ j) :
    lookupCollab (setCollab cs i c) j = lookupCollab cs j := by
  induction cs with
  | nil => simp [setCollab, lookupCollab, h]
  | cons kc rest ih =>
    obtain ⟨k, d⟩ := kc
    by_cases hk : k = i
    · subst hk
      simp [setCollab, lookupCollab, h]
    · by_cases hj : k = j
      · subst hj
        simp [setCollab, lookupCollab, hk]
      · simp [setCollab, lookupCollab, hk, hj, ih]

theorem lookupQ_map_append (subs : List (Nat × List CollabEvent))
    (e : CollabEvent) (h : Nat) :
    lookupQ (subs.map (fun s => (s.1, s.2 ++ [e]))) h
      = (lookupQ subs h).map (fun q => q ++ [e]) := by
  induction subs with
  | nil => rfl
  | cons kq rest ih =>
    obtain ⟨k, q⟩ := kq
    by_cases hk : k = h
    · simp [lookupQ, hk]
    · simp [lookupQ, hk, ih]

theorem lookupQ_filter_ne (subs : List (Nat × List CollabEvent))
    (hdl h2 : Nat) (hne : h2 ≠ hdl) :
    lookupQ (subs.filter (fun s => decide (s.1 ≠ hdl))) h2 = lookupQ subs h2 := by
  induction subs with
  | nil => rfl
  | cons kq rest ih =>
    obtain ⟨k, q⟩ := kq
    simp only [decide_not] at ih ⊢
    by_cases hk : k = hdl
    · subst hk
      have hkh : ¬ k = h2 := fun hc => hne hc.symm
      simp [List.filter_cons, lookupQ, hkh, ih]
    · by_cases hq2 : k = h2
      · subst hq2
        simp [List.filter_cons, hk, lookupQ, ih]
      · simp [List.filter_cons, hk, lookupQ, hq2, ih]

-- C8 ----------------------------------------------------------------------

/-- C8: when a joined client's subscription handle is closed, the leave
cleanup removes the collaborator from the roster, every other still-subscribed
handle receives exactly one `collaborator-left` event carrying that id
(its queue grows by exactly that one event), and the `scene-synced` snapshot of
any later joiner no longer contains the departed collaborator. -/
theorem c8_leave (s : CollabSession) (cid : String) (hdl : Nat) :
    lookupCollab (closeStep s cid hdl).collaborators cid = none
    ∧ (∀ h2 q, h2 ≠ hdl → lookupQ s.channel.subs h2 = some q →
        lookupQ (closeStep s cid hdl).channel.subs h2
          = some (q ++ [CollabEvent.collaboratorLeft cid]))
    ∧ (∀ (st2 : SceneState) (cid2 : String) (c2 : Collaborator), cid2 ≠ cid →
        (joinStep (closeStep s cid hdl) st2 cid2 c2).2.2
          = CollabEvent.sceneSynced st2.elements
              (setCollab (eraseCollab s.collaborators cid) cid2 c2) st2.version
        ∧ lookupCollab (setCollab (eraseCollab s.collaborators cid) cid2 c2) cid
          = none) := by
  refine ⟨lookupCollab_eraseCollab_self s.collaborators cid, ?_, ?_⟩
  · intro h2 q hne hq
    show lookupQ ((bcNotify s.channel (CollabEvent.collaboratorLeft cid)).subs.filter
        (fun x => decide (x.1 ≠ hdl))) h2 = _
    rw [lookupQ_filter_ne _ hdl h2 hne]
    show lookupQ (s.channel.subs.map
        (fun x => (x.1, x.2 ++ [CollabEvent.collaboratorLeft cid]))) h2 = _
    rw [lookupQ_map_append, hq]
    rfl
  · intro st2 cid2 c2 hne
    exact ⟨rfl, by
      rw [lookupCollab_setCollab_ne _ cid2 cid c2 hne]
      exact lookupCollab_eraseCollab_self s.collaborators cid⟩

/-- Witness for `c8_leave`: client `me` (handle 0) closes; the surviving
handle 1 receives the one `collaborator-left` event, and a later joiner
`new` gets a snapshot without `me`. -/
theorem c8_leave_witness :
    lookupCollab (closeStep
        ⟨[("me", ⟨some "me", none⟩), ("you", ⟨some "you", none⟩)],
          ⟨[(0, []), (1, [])], 2⟩⟩ "me" 0).collaborators "me" = none
    ∧ lookupQ (closeStep
        ⟨[("me", ⟨some "me", none⟩), ("you", ⟨some "you", none⟩)],
          ⟨[(0, []), (1, [])], 2⟩⟩ "me" 0).channel.subs 1
      = some ([] ++ [CollabEvent.collaboratorLeft "me"])
    ∧ lookupCollab (setCollab (eraseCollab
        [("me", ⟨some "me", none⟩), ("you", ⟨some "you", none⟩)] "me")
        "new" ⟨some "new", none⟩) "me" = none := by
  refine ⟨(c8_leave _ "me" 0).1, ?_, ?_⟩
  · exact (c8_leave ⟨[("me", ⟨some "me", none⟩), ("you", ⟨some "you", none⟩)],
      ⟨[(0, []), (1, [])], 2⟩⟩ "me" 0).2.1 1 [] (by decide) rfl
  · exact ((c8_leave ⟨[("me", ⟨some "me", none⟩), ("you", ⟨some "you", none⟩)],
      ⟨[(0, []), (1, [])], 2⟩⟩ "me" 0).2.2 ⟨[], 3⟩ "new" ⟨some "new", none⟩
      (by decide)).2
